import Mathlib

/-!
# Verification of the kbnf logits-masking layer

Shallow embedding of the Python sources `src/python/kbnf/engine.py` and
`src/python/kbnf/triton_logits_mask.py`.

Logit values are modelled by `LVal`: the masking code only ever *writes* the
IEEE value `-inf` into the buffer (it performs no float arithmetic), so a
buffer cell is either the distinguished value `-inf` or some original finite
payload, modelled as an `Int`.
-/

/-- A logit cell: either IEEE negative infinity, or an original payload. -/
inductive LVal where
  | ninf : LVal
  | val : Int → LVal
deriving DecidableEq, Repr

/-- `true` exactly on the negative-infinity cell. -/
def LVal.isNinf : LVal → Bool
  | .ninf => true
  | .val _ => false

/-! ## The grammar-engine interface (consumed, out of scope)

`engine.py` consults the internal Rust engine only through
`get_index_of_allowed_token_ids` (the fingerprint),
`get_number_of_disallowed_token_ids`, `get_number_of_allowed_token_ids`,
`write_disallowed_token_ids_to_buffer` and `write_allowed_token_ids_to_buffer`.
We model that interface by its abstract state: a fingerprint together with the
id lists the write calls would produce.  The counts reported by the engine are
the lengths of those lists (the engine's documented contract). -/

structure EngineCore where
  fingerprint : Nat
  disallowed : List Nat
  allowed : List Nat
deriving DecidableEq, Repr

/-- An index buffer as allocated by `module.empty((length,), ...)` and then
filled by the engine write call: an allocation identity (so that reuse versus
reallocation is observable), the ids written into it, and the pin flag chosen
at allocation time. -/
structure Buf where
  id : Nat
  data : List Nat
  pinned : Bool
deriving DecidableEq, Repr

/-- The Python dict `engine._cache`, as an association list from fingerprint to
the `(disallowed, allowed)` buffer pair. -/
abbrev Cache := List (Nat × Buf × Buf)

/-- `fingerprint in engine._cache` / `engine._cache[index]` lookup. -/
def lookupCache : Cache → Nat → Option (Buf × Buf)
  | [], _ => none
  | (f, d, a) :: rest, g => if f = g then some (d, a) else lookupCache rest g

/-- State threaded through `_torch_fast_mask_logits`: the cache plus the
allocator counter handing out fresh buffer identities. -/
structure MaskState where
  cache : Cache
  nextId : Nat
deriving DecidableEq, Repr

/-! ## The two masking paths (`engine.py` lines 69-76) -/

/-- One store of `tensor[i] = -inf`; out-of-range indices are rejected by
torch, and never occur under the engine contract. -/
def setNinf (t : List LVal) (i : Nat) : List LVal :=
  t.set i LVal.ninf

/-- `tensor.index_fill_(0, disallowed, ninf)`: write `-inf` at each listed
position, in list order. -/
def indexFillNinf (t : List LVal) (idxs : List Nat) : List LVal :=
  idxs.foldl setNinf t

/-- `new_tensor = torch.full_like(tensor, -inf); new_tensor.put_(allowed,
tensor.take(allowed))`: a fresh buffer pre-filled with `-inf`, with the
original values scattered back at the allowed positions. -/
def putTake (t : List LVal) (idxs : List Nat) : List LVal :=
  idxs.foldl (fun nt i => nt.set i (t.getD i LVal.ninf)) (List.replicate t.length LVal.ninf)

/-- Outcome of one `mask_logits_fast` call: the resulting buffer, whether it is
a freshly created object (the keep-allowed path returns `new_tensor`) or the
input object mutated in place, the updated cache/allocator state, and the
buffer pair actually used for masking (`none` on the `length == 0`
short-circuit). -/
structure MaskOutcome where
  result : List LVal
  isNew : Bool
  state : MaskState
  used : Option (Buf × Buf)
deriving DecidableEq, Repr

/-- Lines 69-76 of `engine.py`: the strategy switch.  Python compares
`num_of_disallowed > tensor.shape[-1]/2` with exact (real) division, which over
naturals is `2 * numDis > length`. -/
def applyStrategy (numDis : Nat) (t : List LVal) (disallowed allowed : Buf) : List LVal × Bool :=
  if 2 * numDis > t.length then
    (putTake t allowed.data, true)
  else
    (indexFillNinf t disallowed.data, false)

/-- `_torch_fast_mask_logits`'s inner `mask_logits_fast` (`engine.py` lines
45-77), for a 1-D tensor `t` (the `dim() == 1` assertion already passed).
`isCuda` is `tensor.is_cuda`, which decides pinning of freshly built index
buffers. -/
def maskLogitsFast (e : EngineCore) (isCuda : Bool) (t : List LVal) (st : MaskState) :
    MaskOutcome :=
  let index := e.fingerprint
  let numDis := e.disallowed.length
  match lookupCache st.cache index with
  | none =>
    if numDis = 0 then
      ⟨t, false, st, none⟩
    else
      let disallowedBuf : Buf := ⟨st.nextId, e.disallowed, isCuda⟩
      let allowedBuf : Buf := ⟨st.nextId + 1, e.allowed, isCuda⟩
      let st2 : MaskState := ⟨(index, disallowedBuf, allowedBuf) :: st.cache, st.nextId + 2⟩
      let r := applyStrategy numDis t disallowedBuf allowedBuf
      ⟨r.1, r.2, st2, some (disallowedBuf, allowedBuf)⟩
  | some (disallowedBuf, allowedBuf) =>
    let r := applyStrategy numDis t disallowedBuf allowedBuf
    ⟨r.1, r.2, st, some (disallowedBuf, allowedBuf)⟩

/-- Engine contract for a vocabulary of size `V`: the two id lists are
duplicate-free, in range, and partition the token positions. -/
def EngineWF (e : EngineCore) (V : Nat) : Prop :=
  (∀ i ∈ e.disallowed, i < V) ∧ (∀ i ∈ e.allowed, i < V) ∧
    e.disallowed.Nodup ∧ e.allowed.Nodup ∧
    (∀ p, p < V → (p ∈ e.disallowed ↔ p ∉ e.allowed))

/-- The cache is coherent with engine `e`: if `e`'s fingerprint is cached, the
cached buffers hold exactly `e`'s current id lists.  This is the fingerprint
contract (`get_index_of_allowed_token_ids` identifies the allowed set). -/
def CacheCoherent (e : EngineCore) (st : MaskState) : Prop :=
  ∀ d a, lookupCache st.cache e.fingerprint = some (d, a) →
    d.data = e.disallowed ∧ a.data = e.allowed

/-! ## Counting masked and untouched positions (for complementarity) -/

/-- Number of token positions `p < V` that hold `-inf`. -/
def countNinfPos (l : List LVal) (V : Nat) : Nat :=
  (List.range V).countP (fun p => (l.getD p (LVal.val 0)).isNinf)

/-- Number of token positions `p < V` that hold a finite value. -/
def countFinitePos (l : List LVal) (V : Nat) : Nat :=
  (List.range V).countP (fun p => !(l.getD p (LVal.val 0)).isNinf)

/-! ## The fingerprint-cache invariant (C7) -/

/-- The fingerprint oracle `F`: the engine contract says a fingerprint
identifies the allowed-id-set shape, so it determines the two id lists. -/
def CacheOK (F : Nat → List Nat × List Nat) (c : Cache) : Prop :=
  (c.map Prod.fst).Nodup ∧
    ∀ ent ∈ c, ent.2.1.data = (F ent.1).1 ∧ ent.2.2.data = (F ent.1).2

/-- Every buffer identity stored in the cache was handed out by the allocator
before `n`. -/
def IdsBound (c : Cache) (n : Nat) : Prop :=
  ∀ ent ∈ c, ent.2.1.id < n ∧ ent.2.2.id < n

/-! ## The batched parallel masker (`triton_logits_mask.py`)

`_apply_token_bitmask_inplace_kernel` is launched on a grid of `numSMS`
programs; program `pid` walks `tl.range(pid, num_rows * num_blocks, NUM_SMS)`.
Every work unit only ever stores the constant `-inf` at addresses derived from
its own `(row, block)` pair, so distinct work units either touch disjoint
addresses or (for duplicated batch ids) store the same value; the parallel
launch is therefore modelled by running the programs in pid order. -/

/-- Flat addresses are `batch_id * vocab_size + position`.  `storeNinfWhere
cond j0 l` performs `tl.store(logits_ptr + ·, -inf, cond)` over the cells of
`l`, whose first cell sits at flat address `j0`. -/
def storeNinfWhere (cond : Nat → Bool) : Nat → List LVal → List LVal
  | _, [] => []
  | j, v :: rest => (if cond j then LVal.ninf else v) :: storeNinfWhere cond (j + 1) rest

/-- One work unit of the kernel (lines 25-38 of `triton_logits_mask.py`):
does work unit `workId` store `-inf` at flat logits address `j`?
`block_offset = (work_id % num_blocks) * BLOCK_SIZE`, `row_id = work_id //
num_blocks`, `batch_id = indices[row_id]`; the stored offsets are `block_offset
+ arange(0, BLOCK)` guarded by `offsets < vocab_size`; the packed words are
loaded at `batch_id * bitmask_size + block_offset // 32 + lane // 32` guarded
by that offset being `< bitmask_size` (a masked-off `tl.load` lane is modelled
as 0 — it is never stored for a well-sized bitmask), and the store happens on
lanes whose bit `lane % 32` is CLEAR (`(word >> bit) & 1 == 0`). -/
def kernelStore (indices bm : List Nat) (vocabSize bitmaskSize BLOCK workId j : Nat) : Bool :=
  let numBlocks := (vocabSize + BLOCK - 1) / BLOCK
  let blockOffset := workId % numBlocks * BLOCK
  let rowId := workId / numBlocks
  let batchId := indices.getD rowId 0
  decide (batchId * vocabSize ≤ j) &&
    decide (j < batchId * vocabSize + vocabSize) &&
    (let p := j - batchId * vocabSize
     let lane := p - blockOffset
     let wordOff := blockOffset / 32 + lane / 32
     let word := if wordOff < bitmaskSize then bm.getD (batchId * bitmaskSize + wordOff) 0 else 0
     decide (blockOffset ≤ p) && decide (p < blockOffset + BLOCK) &&
       !(Nat.testBit word (lane % 32)))

/-- Run the listed work units in order. -/
def runWorkIds (indices bm : List Nat) (V bsize BLOCK : Nat) (ids : List Nat)
    (logits : List LVal) : List LVal :=
  ids.foldl (fun lg w => storeNinfWhere (kernelStore indices bm V bsize BLOCK w) 0 lg) logits

/-- `for work_id in tl.range(pid, total, stride)`: the work ids visited by one
program, with fuel bounding the recursion (any `fuel ≥ total` is exact when
`stride ≥ 1`). -/
def strideIds (fuel start stride total : Nat) : List Nat :=
  match fuel with
  | 0 => []
  | fuel + 1 =>
    if start < total then start :: strideIds fuel (start + stride) stride total
    else []

/-- All work ids executed by the grid of `numSMS` programs. -/
def gridWorkIds (numSMS total : Nat) : List Nat :=
  ((List.range numSMS).map (fun pid => strideIds total pid numSMS total)).flatten

/-- The kernel launched on `grid = (NUM_SMS,)` with `num_rows =
indices.shape[0]` and `num_blocks = cdiv(vocab_size, BLOCK_SIZE)`. -/
def applyTokenBitmaskKernel (indices bm : List Nat) (V bsize BLOCK numSMS : Nat)
    (logits : List LVal) : List LVal :=
  runWorkIds indices bm V bsize BLOCK
    (gridWorkIds numSMS (indices.length * ((V + BLOCK - 1) / BLOCK))) logits

/-- `_apply_token_bitmask_inplace_triton` (lines 41-78): `BLOCK_SIZE = 4096`,
`bitmask_size = ceil_div(vocab_size, 32)`, `indices = arange(batch_size)` when
`None`.  `numRows`/`V` are the logits tensor's shape, `numSMS` the device's
multiprocessor count. -/
def applyTokenBitmaskTriton (logits : List LVal) (numRows V : Nat) (bm : List Nat)
    (indices : Option (List Nat)) (numSMS : Nat) : List LVal :=
  let inds := match indices with
    | none => List.range numRows
    | some l => l
  applyTokenBitmaskKernel inds bm V ((V + 32 - 1) / 32) 4096 numSMS logits

/-! ## `mask_logits_inplace` (`triton_logits_mask.py` lines 80-102) -/

/-- The code as written, for a 2-D bitmask tensor of `k` contiguous rows: the
fill loop has engine `i` write its `ceil(V/32)` packed words into row `i`
(`engine.fill_torch_bitmask(bitmask.data_ptr())`), so the filled tensor is the
concatenation of the engines' word lists; but the kernel is then launched with
the *loop variable* `bitmask` — the LAST row — as its bitmask base pointer
(line 102 passes `bitmask`, not `bitmasks`), i.e. the flat words starting at
offset `(k-1) * ceil(V/32)`. -/
def mask_logits_inplace (logits : List LVal) (numRows V : Nat)
    (engineRows : List (List Nat)) (indices : Option (List Nat)) (numSMS : Nat) :
    List LVal :=
  let bsize := (V + 32 - 1) / 32
  let filled := engineRows.flatten
  let base := (engineRows.length - 1) * bsize
  applyTokenBitmaskTriton logits numRows V (filled.drop base) indices numSMS

/-- The behavior the claim and the function's own docstring describe: the
kernel applied to the whole filled bitmask tensor, so that logits row `i` is
masked by engine `i`'s bitmask row. -/
def mask_logits_inplace_per_engine (logits : List LVal) (numRows V : Nat)
    (engineRows : List (List Nat)) (indices : Option (List Nat)) (numSMS : Nat) :
    List LVal :=
  applyTokenBitmaskTriton logits numRows V engineRows.flatten indices numSMS

/-! ## Shape validation in `Engine.mask_logits` (C9) -/

/-- Logits handle kinds dispatched by `mask_logits`. -/
inductive HandleKind where
  | torchTensor : HandleKind
  | numpyArray : HandleKind
deriving DecidableEq, Repr

/-- Outcome of the shape assertions. -/
inductive ShapeOutcome where
  | ok : ShapeOutcome
  | shapeError : ShapeOutcome
deriving DecidableEq, Repr

/-- `assert tensor.dim() == 1` — the torch fast-mask path (`engine.py` line
47), which consumes every torch tensor whenever the fast path is registered
(torch installed, 64-bit platform). -/
def torchFastShapeCheck (shape : List Nat) : ShapeOutcome :=
  if shape.length = 1 then .ok else .shapeError

/-- `assert array.ndim == 1 or array.ndim == 2 and array.shape[0] == 1` — the
numpy slice converter (`engine.py` lines 83-84). -/
def numpyShapeCheck (shape : List Nat) : ShapeOutcome :=
  if shape.length = 1 ∨ (shape.length = 2 ∧ shape.getD 0 0 = 1) then .ok else .shapeError

/-- Shape validation performed by `Engine.mask_logits`: a torch tensor is
claimed by the fast-mask path (tried first; it either returns a result or
raises its assertion), while a numpy array falls through `_mask_logits_fast`
and the torch slice converter (both `isinstance` checks fail) to the numpy
converter. -/
def maskLogitsShapeOutcome : HandleKind → List Nat → ShapeOutcome
  | .torchTensor, s => torchFastShapeCheck s
  | .numpyArray, s => numpyShapeCheck s

/-- Validate-then-mutate: the assertions run before any store into the buffer
(first statement of both paths), so a rejected call leaves the buffer
untouched. -/
def maskLogitsValidated (k : HandleKind) (shape : List Nat) (buf : List LVal)
    (maskFn : List LVal → List LVal) : ShapeOutcome × List LVal :=
  match maskLogitsShapeOutcome k shape with
  | .ok => (.ok, maskFn buf)
  | .shapeError => (.shapeError, buf)

/-! ## `Engine.__copy__` / `Engine.__deepcopy__` (C10) -/

/-- The Python `Engine` wrapper: the opaque internal engine plus the `_cache`
dict. -/
structure PyEngine where
  internal : EngineCore
  cache : Cache
deriving DecidableEq, Repr

/-- `Engine.__copy__` (`engine.py` lines 236-240): copies the internal engine
(`self._internal.__copy__()`, modelled as preserving its abstract state) and
installs a fresh empty `_cache`. -/
def engineCopy (e : PyEngine) : PyEngine :=
  { internal := e.internal, cache := [] }

/-- `Engine.__deepcopy__` (`engine.py` lines 242-246): deep-copies the internal
engine and installs a fresh empty `_cache`. -/
def engineDeepcopy (e : PyEngine) : PyEngine :=
  { internal := e.internal, cache := [] }

/-! ## Pointwise characterization of the store loops -/

theorem length_foldl_set (f : Nat → LVal) (idxs : List Nat) (init : List LVal) :
    (idxs.foldl (fun nt i => nt.set i (f i)) init).length = init.length := by
  induction idxs generalizing init with
  | nil => rfl
  | cons i rest ih => simp [List.foldl_cons, ih, List.length_set]

theorem getElem?_foldl_set (f : Nat → LVal) (idxs : List Nat) (init : List LVal) (p : Nat) :
    (idxs.foldl (fun nt i => nt.set i (f i)) init)[p]? =
      if p ∈ idxs ∧ p < init.length then some (f p) else init[p]? := by
  induction idxs generalizing init with
  | nil => simp
  | cons i rest ih =>
    rw [List.foldl_cons, ih, List.length_set, List.getElem?_set]
    by_cases hip : i = p
    · subst hip
      by_cases hlt : i < init.length
      · by_cases hmem : i ∈ rest <;> simp [hmem, hlt]
      · have hnone : init[i]? = none := List.getElem?_eq_none (Nat.le_of_not_lt hlt)
        by_cases hmem : i ∈ rest <;> simp [hmem, hlt, hnone]
    · have hpi : ¬p = i := fun h => hip h.symm
      by_cases hmem : p ∈ rest <;> by_cases hlt : p < init.length <;>
        simp [hmem, hlt, hip, hpi]

theorem indexFillNinf_eq_foldl (t : List LVal) (idxs : List Nat) :
    indexFillNinf t idxs = idxs.foldl (fun nt i => nt.set i ((fun _ => LVal.ninf) i)) t := rfl

theorem length_indexFillNinf (t : List LVal) (idxs : List Nat) :
    (indexFillNinf t idxs).length = t.length := by
  rw [indexFillNinf_eq_foldl]; exact length_foldl_set _ idxs t

theorem getElem?_indexFillNinf (t : List LVal) (idxs : List Nat) (p : Nat) :
    (indexFillNinf t idxs)[p]? =
      if p ∈ idxs ∧ p < t.length then some LVal.ninf else t[p]? := by
  rw [indexFillNinf_eq_foldl, getElem?_foldl_set]

theorem length_putTake (t : List LVal) (idxs : List Nat) :
    (putTake t idxs).length = t.length := by
  unfold putTake
  rw [length_foldl_set (fun i => t.getD i LVal.ninf) idxs]
  exact List.length_replicate ..

theorem getElem?_putTake (t : List LVal) (idxs : List Nat) (p : Nat)
    (hidx : ∀ i ∈ idxs, i < t.length) :
    (putTake t idxs)[p]? =
      if p < t.length then (if p ∈ idxs then t[p]? else some LVal.ninf) else none := by
  unfold putTake
  rw [getElem?_foldl_set (fun i => t.getD i LVal.ninf) idxs]
  rw [List.length_replicate]
  by_cases hmem : p ∈ idxs
  · have hp := hidx p hmem
    simp only [hmem, hp, and_self, if_pos, true_and, if_true]
    rw [List.getD_eq_getElem?_getD, List.getElem?_eq_getElem hp]
    rfl
  · by_cases hlt : p < t.length <;>
      simp [hmem, hlt, List.getElem?_replicate]

/-! ## Characterization of one `mask_logits_fast` call -/

theorem maskLogitsFast_length (e : EngineCore) (isCuda : Bool) (t : List LVal)
    (st : MaskState) : (maskLogitsFast e isCuda t st).result.length = t.length := by
  unfold maskLogitsFast applyStrategy
  cases hlk : lookupCache st.cache e.fingerprint with
  | none =>
    by_cases h0 : e.disallowed.length = 0
    · simp [hlk, h0]
    · by_cases hgt : 2 * e.disallowed.length > t.length <;>
        simp [hlk, h0, hgt, length_putTake, length_indexFillNinf]
  | some pr =>
    obtain ⟨d0, a0⟩ := pr
    by_cases hgt : 2 * e.disallowed.length > t.length <;>
      simp [hlk, hgt, length_putTake, length_indexFillNinf]

/-- The pair of index buffers used by the call holds exactly the engine's
current id lists (cache hit gives them by coherence; cache miss builds them
from the engine's write calls). -/
theorem maskLogitsFast_used_data (e : EngineCore) (isCuda : Bool) (t : List LVal)
    (st : MaskState) (hcoh : CacheCoherent e st) :
    ∀ d a, (maskLogitsFast e isCuda t st).used = some (d, a) →
      d.data = e.disallowed ∧ a.data = e.allowed := by
  intro d a h
  unfold maskLogitsFast at h
  cases hlk : lookupCache st.cache e.fingerprint with
  | none =>
    by_cases h0 : e.disallowed.length = 0
    · simp [hlk, h0] at h
    · simp only [hlk, h0, if_false, Option.some.injEq, Prod.mk.injEq] at h
      obtain ⟨hd, ha⟩ := h
      subst hd
      subst ha
      exact ⟨rfl, rfl⟩
  | some pr =>
    obtain ⟨d0, a0⟩ := pr
    simp only [hlk, Option.some.injEq, Prod.mk.injEq] at h
    obtain ⟨hd, ha⟩ := h
    subst hd
    subst ha
    exact hcoh _ _ hlk

/-- Pointwise description of the buffer returned by `mask_logits_fast`, split
by the strategy switch, together with the in-place/fresh-object flag. -/
theorem maskLogitsFast_char (e : EngineCore) (V : Nat) (isCuda : Bool)
    (t : List LVal) (st : MaskState)
    (hwf : EngineWF e V) (ht : t.length = V) (hcoh : CacheCoherent e st) :
    (2 * e.disallowed.length ≤ V →
      (maskLogitsFast e isCuda t st).isNew = false ∧
      ∀ p, (maskLogitsFast e isCuda t st).result[p]? =
        (if p ∈ e.disallowed ∧ p < V then some LVal.ninf else t[p]?)) ∧
    (2 * e.disallowed.length > V →
      (maskLogitsFast e isCuda t st).isNew = true ∧
      ∀ p, (maskLogitsFast e isCuda t st).result[p]? =
        (if p < V then (if p ∈ e.allowed then t[p]? else some LVal.ninf) else none)) := by
  obtain ⟨hdb, hab, _, _, _⟩ := hwf
  have hfill : ∀ p, (indexFillNinf t e.disallowed)[p]? =
      (if p ∈ e.disallowed ∧ p < V then some LVal.ninf else t[p]?) := by
    intro p; rw [getElem?_indexFillNinf, ht]
  have hput : ∀ p, (putTake t e.allowed)[p]? =
      (if p < V then (if p ∈ e.allowed then t[p]? else some LVal.ninf) else none) := by
    intro p
    rw [getElem?_putTake t e.allowed p (fun i hi => ht ▸ hab i hi), ht]
  unfold maskLogitsFast applyStrategy
  cases hlk : lookupCache st.cache e.fingerprint with
  | none =>
    by_cases h0 : e.disallowed.length = 0
    · have hnil : e.disallowed = [] := List.eq_nil_of_length_eq_zero h0
      constructor
      · intro _
        refine ⟨by simp [hlk, h0], ?_⟩
        intro p
        simp [hlk, h0, hnil]
      · intro hgt
        rw [h0] at hgt
        omega
    · by_cases hgt : 2 * e.disallowed.length > t.length
      · have hgt2 : 2 * e.disallowed.length > V := ht ▸ hgt
        refine ⟨fun hle => absurd hgt2 (by omega), fun _ => ⟨by simp [hlk, h0, hgt], ?_⟩⟩
        intro p
        simpa [hlk, h0, hgt] using hput p
      · have hle2 : ¬2 * e.disallowed.length > V := ht ▸ hgt
        refine ⟨fun _ => ⟨by simp [hlk, h0, hgt], ?_⟩, fun hgt2 => absurd hgt2 hle2⟩
        intro p
        simpa [hlk, h0, hgt] using hfill p
  | some pr =>
    obtain ⟨d0, a0⟩ := pr
    obtain ⟨hd0, ha0⟩ := hcoh d0 a0 hlk
    by_cases hgt : 2 * e.disallowed.length > t.length
    · have hgt2 : 2 * e.disallowed.length > V := ht ▸ hgt
      refine ⟨fun hle => absurd hgt2 (by omega), fun _ => ⟨by simp [hlk, hgt], ?_⟩⟩
      intro p
      simpa [hlk, hgt, hd0, ha0] using hput p
    · have hle2 : ¬2 * e.disallowed.length > V := ht ▸ hgt
      refine ⟨fun _ => ⟨by simp [hlk, hgt], ?_⟩, fun hgt2 => absurd hgt2 hle2⟩
      intro p
      simpa [hlk, hgt, hd0, ha0] using hfill p

/-- `engine._cache` lookups fail exactly on fingerprints absent from the dict. -/
theorem lookupCache_eq_none_iff (c : Cache) (g : Nat) :
    lookupCache c g = none ↔ g ∉ c.map Prod.fst := by
  induction c with
  | nil => simp [lookupCache]
  | cons ent rest ih =>
    obtain ⟨f, d, a⟩ := ent
    by_cases hf : f = g
    · subst hf
      simp [lookupCache]
    · simp [lookupCache, hf, ih, Ne.symm hf]

/-- A successful lookup returns an entry of the dict. -/
theorem lookupCache_mem (c : Cache) (g : Nat) (d a : Buf)
    (h : lookupCache c g = some (d, a)) : (g, d, a) ∈ c := by
  induction c with
  | nil => simp [lookupCache] at h
  | cons ent rest ih =>
    obtain ⟨f, d0, a0⟩ := ent
    by_cases hf : f = g
    · subst hf
      simp only [lookupCache, if_pos rfl, Option.some.injEq, Prod.mk.injEq] at h
      obtain ⟨rfl, rfl⟩ := h
      exact List.mem_cons_self ..
    · simp only [lookupCache, if_neg hf] at h
      exact List.mem_cons_of_mem _ (ih h)

/-- On a cache hit, `mask_logits_fast` neither allocates nor writes to the
cache, and masks with the cached buffer pair. -/
theorem maskLogitsFast_hit (e : EngineCore) (isCuda : Bool) (t : List LVal)
    (st : MaskState) (d a : Buf)
    (hlk : lookupCache st.cache e.fingerprint = some (d, a)) :
    (maskLogitsFast e isCuda t st).state = st ∧
      (maskLogitsFast e isCuda t st).used = some (d, a) := by
  unfold maskLogitsFast
  simp [hlk]

/-- On a cache miss with a nonzero disallowed count, `mask_logits_fast`
allocates two fresh buffers, fills them with the engine's id lists, and caches
them under the engine's fingerprint. -/
theorem maskLogitsFast_miss (e : EngineCore) (isCuda : Bool) (t : List LVal)
    (st : MaskState)
    (hlk : lookupCache st.cache e.fingerprint = none)
    (h0 : e.disallowed.length ≠ 0) :
    (maskLogitsFast e isCuda t st).state =
      ⟨(e.fingerprint, ⟨st.nextId, e.disallowed, isCuda⟩,
          ⟨st.nextId + 1, e.allowed, isCuda⟩) :: st.cache, st.nextId + 2⟩ ∧
      (maskLogitsFast e isCuda t st).used =
        some (⟨st.nextId, e.disallowed, isCuda⟩, ⟨st.nextId + 1, e.allowed, isCuda⟩) := by
  unfold maskLogitsFast
  simp [hlk, h0]

/-- After a call for engine `e`, `e`'s fingerprint is cached exactly with the
buffer pair the call used (provided the disallowed count is nonzero). -/
theorem maskLogitsFast_lookup_after (e : EngineCore) (isCuda : Bool) (t : List LVal)
    (st : MaskState) (h0 : e.disallowed.length ≠ 0) :
    ∃ pr, lookupCache (maskLogitsFast e isCuda t st).state.cache e.fingerprint = some pr ∧
      (maskLogitsFast e isCuda t st).used = some pr := by
  cases hlk : lookupCache st.cache e.fingerprint with
  | none =>
    obtain ⟨hst, hu⟩ := maskLogitsFast_miss e isCuda t st hlk h0
    exact ⟨_, by rw [hst]; simp [lookupCache], hu⟩
  | some pr =>
    obtain ⟨d, a⟩ := pr
    obtain ⟨hst, hu⟩ := maskLogitsFast_hit e isCuda t st d a hlk
    exact ⟨(d, a), by rw [hst]; exact hlk, hu⟩

/-- A call for engine `e` keeps the cache coherent with `e`. -/
theorem cacheCoherent_after (e : EngineCore) (isCuda : Bool) (t : List LVal)
    (st : MaskState) (hcoh : CacheCoherent e st) :
    CacheCoherent e (maskLogitsFast e isCuda t st).state := by
  cases hlk : lookupCache st.cache e.fingerprint with
  | none =>
    by_cases h0 : e.disallowed.length = 0
    · unfold maskLogitsFast
      simpa [hlk, h0] using hcoh
    · obtain ⟨hst, _⟩ := maskLogitsFast_miss e isCuda t st hlk h0
      rw [hst]
      intro d a h
      simp only [lookupCache, if_pos rfl, Option.some.injEq, Prod.mk.injEq] at h
      obtain ⟨rfl, rfl⟩ := h
      exact ⟨rfl, rfl⟩
  | some pr =>
    obtain ⟨d, a⟩ := pr
    obtain ⟨hst, _⟩ := maskLogitsFast_hit e isCuda t st d a hlk
    rw [hst]
    exact hcoh

/-- C3: for every `Engine.mask_logits` call on a vocabulary of size `V` (torch
fast path): when `disallowed_count ≤ V / 2` the suppress-disallowed path runs,
mutating the input in place with `-inf` at exactly the disallowed positions and
leaving every other position untouched; when `disallowed_count > V / 2` the
keep-allowed path runs, returning a fresh buffer pre-filled with `-inf` with
the original values scattered back at exactly the allowed positions. -/
theorem C3_strategy_selection (e : EngineCore) (V : Nat) (isCuda : Bool)
    (t : List LVal) (st : MaskState)
    (hwf : EngineWF e V) (ht : t.length = V) (hcoh : CacheCoherent e st) :
    (2 * e.disallowed.length ≤ V →
      (maskLogitsFast e isCuda t st).isNew = false ∧
      ∀ p, p < V → (maskLogitsFast e isCuda t st).result[p]? =
        (if p ∈ e.disallowed then some LVal.ninf else t[p]?)) ∧
    (2 * e.disallowed.length > V →
      (maskLogitsFast e isCuda t st).isNew = true ∧
      ∀ p, p < V → (maskLogitsFast e isCuda t st).result[p]? =
        (if p ∈ e.allowed then t[p]? else some LVal.ninf)) := by
  obtain ⟨hs, hk⟩ := maskLogitsFast_char e V isCuda t st hwf ht hcoh
  refine ⟨fun hle => ?_, fun hgt => ?_⟩
  · obtain ⟨hnew, hp⟩ := hs hle
    refine ⟨hnew, fun p hpV => ?_⟩
    rw [hp p]
    by_cases hm : p ∈ e.disallowed <;> simp [hm, hpV]
  · obtain ⟨hnew, hp⟩ := hk hgt
    refine ⟨hnew, fun p hpV => ?_⟩
    rw [hp p]
    simp [hpV]

/-- Witness for C3: vocabulary 8, disallowed `{1,3,5}`, allowed
`{0,2,4,6,7}`, empty cache; the suppress branch applies since `2*3 ≤ 8`. -/
theorem C3_strategy_selection_witness :
    EngineWF ⟨0, [1, 3, 5], [0, 2, 4, 6, 7]⟩ 8 ∧
    (List.replicate 8 (LVal.val 3)).length = 8 ∧
    CacheCoherent ⟨0, [1, 3, 5], [0, 2, 4, 6, 7]⟩ ⟨[], 0⟩ ∧
    ((2 * (⟨0, [1, 3, 5], [0, 2, 4, 6, 7]⟩ : EngineCore).disallowed.length ≤ 8 →
      (maskLogitsFast ⟨0, [1, 3, 5], [0, 2, 4, 6, 7]⟩ false
          (List.replicate 8 (LVal.val 3)) ⟨[], 0⟩).isNew = false ∧
      ∀ p, p < 8 → (maskLogitsFast ⟨0, [1, 3, 5], [0, 2, 4, 6, 7]⟩ false
          (List.replicate 8 (LVal.val 3)) ⟨[], 0⟩).result[p]? =
        (if p ∈ (⟨0, [1, 3, 5], [0, 2, 4, 6, 7]⟩ : EngineCore).disallowed
          then some LVal.ninf else (List.replicate 8 (LVal.val 3))[p]?)) ∧
    (2 * (⟨0, [1, 3, 5], [0, 2, 4, 6, 7]⟩ : EngineCore).disallowed.length > 8 →
      (maskLogitsFast ⟨0, [1, 3, 5], [0, 2, 4, 6, 7]⟩ false
          (List.replicate 8 (LVal.val 3)) ⟨[], 0⟩).isNew = true ∧
      ∀ p, p < 8 → (maskLogitsFast ⟨0, [1, 3, 5], [0, 2, 4, 6, 7]⟩ false
          (List.replicate 8 (LVal.val 3)) ⟨[], 0⟩).result[p]? =
        (if p ∈ (⟨0, [1, 3, 5], [0, 2, 4, 6, 7]⟩ : EngineCore).allowed
          then (List.replicate 8 (LVal.val 3))[p]? else some LVal.ninf))) :=
  ⟨by unfold EngineWF; decide, by decide, fun d a h => by simp [lookupCache] at h,
    C3_strategy_selection ⟨0, [1, 3, 5], [0, 2, 4, 6, 7]⟩ 8 false
      (List.replicate 8 (LVal.val 3)) ⟨[], 0⟩ (by unfold EngineWF; decide) (by decide)
      (fun d a h => by simp [lookupCache] at h)⟩

/-- C4: for every buffer and every partition of its positions into allowed and
disallowed sets, the suppress-disallowed path and the keep-allowed path produce
bit-identical buffer contents. -/
theorem C4_strategy_equivalence (t : List LVal) (dis alw : List Nat)
    (hd : ∀ i ∈ dis, i < t.length) (ha : ∀ i ∈ alw, i < t.length)
    (hpart : ∀ p, p < t.length → (p ∈ dis ↔ p ∉ alw)) :
    indexFillNinf t dis = putTake t alw := by
  apply List.ext_getElem?
  intro p
  rw [getElem?_indexFillNinf, getElem?_putTake t alw p ha]
  by_cases hlt : p < t.length
  · by_cases hm : p ∈ dis
    · have hna : p ∉ alw := (hpart p hlt).mp hm
      simp [hm, hlt, hna]
    · have hpa : p ∈ alw := not_not.mp (fun hn => hm ((hpart p hlt).mpr hn))
      simp [hm, hlt, hpa]
  · have hnone : t[p]? = none := List.getElem?_eq_none (Nat.le_of_not_lt hlt)
    simp [hlt, hnone]

/-- Witness for C4: vocabulary 8, disallowed `{1,3,5}`, allowed `{0,2,4,6,7}`;
both paths give the same buffer. -/
theorem C4_strategy_equivalence_witness :
    (∀ i ∈ [1, 3, 5], i <
      ([LVal.val 10, LVal.val 11, LVal.val 12, LVal.val 13, LVal.val 14,
        LVal.val 15, LVal.val 16, LVal.val 17] : List LVal).length) ∧
    (∀ i ∈ [0, 2, 4, 6, 7], i <
      ([LVal.val 10, LVal.val 11, LVal.val 12, LVal.val 13, LVal.val 14,
        LVal.val 15, LVal.val 16, LVal.val 17] : List LVal).length) ∧
    (∀ p, p < ([LVal.val 10, LVal.val 11, LVal.val 12, LVal.val 13, LVal.val 14,
        LVal.val 15, LVal.val 16, LVal.val 17] : List LVal).length →
      (p ∈ [1, 3, 5] ↔ p ∉ [0, 2, 4, 6, 7])) ∧
    indexFillNinf [LVal.val 10, LVal.val 11, LVal.val 12, LVal.val 13, LVal.val 14,
        LVal.val 15, LVal.val 16, LVal.val 17] [1, 3, 5] =
      putTake [LVal.val 10, LVal.val 11, LVal.val 12, LVal.val 13, LVal.val 14,
        LVal.val 15, LVal.val 16, LVal.val 17] [0, 2, 4, 6, 7] :=
  ⟨by decide, by decide, by decide,
    C4_strategy_equivalence _ [1, 3, 5] [0, 2, 4, 6, 7]
      (by decide) (by decide) (by decide)⟩

theorem countP_mem_range (ids : List Nat) (V : Nat) (hnd : ids.Nodup)
    (hb : ∀ i ∈ ids, i < V) :
    (List.range V).countP (fun p => decide (p ∈ ids)) = ids.length := by
  rw [List.countP_eq_length_filter]
  have h1 : ((List.range V).filter (fun p => decide (p ∈ ids))).Nodup :=
    (List.nodup_range V).filter _
  have h2 : ∀ x, x ∈ (List.range V).filter (fun p => decide (p ∈ ids)) ↔ x ∈ ids := by
    intro x
    rw [List.mem_filter, List.mem_range]
    constructor
    · exact fun hx => of_decide_eq_true hx.2
    · exact fun hx => ⟨hb x hx, decide_eq_true hx⟩
  have h3 : ((List.range V).filter (fun p => decide (p ∈ ids))).toFinset = ids.toFinset := by
    apply Finset.ext
    intro x
    rw [List.mem_toFinset, List.mem_toFinset]
    exact h2 x
  calc ((List.range V).filter (fun p => decide (p ∈ ids))).length
      = ((List.range V).filter (fun p => decide (p ∈ ids))).toFinset.card :=
        (List.toFinset_card_of_nodup h1).symm
    _ = ids.toFinset.card := by rw [h3]
    _ = ids.length := List.toFinset_card_of_nodup hnd

/-- Under the engine contract the two reported counts add up to the vocabulary
size. -/
theorem engineWF_length_sum (e : EngineCore) (V : Nat) (hwf : EngineWF e V) :
    e.disallowed.length + e.allowed.length = V := by
  obtain ⟨hdb, hab, hdn, han, hpart⟩ := hwf
  have hd : (List.range V).countP (fun p => decide (p ∈ e.disallowed)) =
      e.disallowed.length := countP_mem_range e.disallowed V hdn hdb
  have ha : (List.range V).countP (fun p => decide (p ∈ e.allowed)) =
      e.allowed.length := countP_mem_range e.allowed V han hab
  have hsplit := List.length_eq_countP_add_countP
    (fun p => decide (p ∈ e.disallowed)) (l := List.range V)
  rw [List.length_range] at hsplit
  have hcompl : (List.range V).countP
      (fun p => decide ¬(decide (p ∈ e.disallowed) = true)) =
      (List.range V).countP (fun p => decide (p ∈ e.allowed)) := by
    apply List.countP_congr
    intro p hp
    rw [List.mem_range] at hp
    by_cases hm : p ∈ e.allowed
    · have : p ∉ e.disallowed := fun hc => ((hpart p hp).mp hc) hm
      simp [hm, this]
    · have : p ∈ e.disallowed := (hpart p hp).mpr hm
      simp [hm, this]
  rw [hcompl, hd, ha] at hsplit
  omega

/-- After a `mask_logits_fast` call on all-finite logits, a position `p < V` is
`-inf` in the result exactly when it is disallowed. -/
theorem maskLogitsFast_ninf_iff (e : EngineCore) (V : Nat) (isCuda : Bool)
    (t : List LVal) (st : MaskState)
    (hwf : EngineWF e V) (ht : t.length = V) (hcoh : CacheCoherent e st)
    (hfin : ∀ v ∈ t, v ≠ LVal.ninf) :
    ∀ p, p < V →
      ((maskLogitsFast e isCuda t st).result.getD p (LVal.val 0)).isNinf =
        decide (p ∈ e.disallowed) := by
  intro p hp
  have hplen : p < t.length := ht ▸ hp
  have hval : ∃ v, t[p]? = some v ∧ v ≠ LVal.ninf := by
    refine ⟨t[p], List.getElem?_eq_getElem hplen, hfin _ (t.getElem_mem hplen)⟩
  obtain ⟨v, hv, hvfin⟩ := hval
  have hvninf : v.isNinf = false := by
    cases v with
    | ninf => exact absurd rfl hvfin
    | val x => rfl
  obtain ⟨hs, hk⟩ := maskLogitsFast_char e V isCuda t st hwf ht hcoh
  obtain ⟨_, _, _, _, hpart⟩ := hwf
  rcases Nat.lt_or_ge V (2 * e.disallowed.length) with hgt | hle
  · obtain ⟨_, hchar⟩ := hk hgt
    rw [List.getD_eq_getElem?_getD, hchar p]
    by_cases hm : p ∈ e.allowed
    · have hnd : p ∉ e.disallowed := fun hc => ((hpart p hp).mp hc) hm
      simp [hp, hm, hv, hvninf, hnd]
    · have hnd : p ∈ e.disallowed := (hpart p hp).mpr hm
      simp [hp, hm, hnd, LVal.isNinf]
  · obtain ⟨_, hchar⟩ := hs hle
    rw [List.getD_eq_getElem?_getD, hchar p]
    by_cases hm : p ∈ e.disallowed
    · simp [hp, hm, LVal.isNinf]
    · simp [hp, hm, hv, hvninf]

/-- C5 counterexample: the claim quantifies over *every* logits buffer, but a
buffer that already contains `-inf` at an allowed position falsifies it.  With
vocabulary 2, disallowed `{1}`, allowed `{0}` and input `[-inf, 5.0]`, the
masked buffer has two `-inf` positions while `disallowed_count = 1`. -/
theorem C5_complementarity_counterexample :
    EngineWF ⟨0, [1], [0]⟩ 2 ∧
    (⟨0, [1], [0]⟩ : EngineCore).disallowed.length = 1 ∧
    countNinfPos
      (maskLogitsFast ⟨0, [1], [0]⟩ false [LVal.ninf, LVal.val 5] ⟨[], 0⟩).result 2 = 2 := by
  refine ⟨?_, rfl, ?_⟩
  · unfold EngineWF
    decide
  · decide

/-- C5 (amended): for every buffer of vocabulary size `V` *all of whose entries
are finite* — the case the spec's complementarity property describes, since
masking is what introduces `-inf` — the number of `-inf` positions after
masking equals `disallowed_count`, the number of untouched finite positions
equals `allowed_count`, and the two counts add up to `V`. -/
theorem C5_complementarity (e : EngineCore) (V : Nat) (isCuda : Bool)
    (t : List LVal) (st : MaskState)
    (hwf : EngineWF e V) (ht : t.length = V) (hcoh : CacheCoherent e st)
    (hfin : ∀ v ∈ t, v ≠ LVal.ninf) :
    countNinfPos (maskLogitsFast e isCuda t st).result V = e.disallowed.length ∧
    countFinitePos (maskLogitsFast e isCuda t st).result V = e.allowed.length ∧
    e.disallowed.length + e.allowed.length = V := by
  have hsum := engineWF_length_sum e V hwf
  have hiff := maskLogitsFast_ninf_iff e V isCuda t st hwf ht hcoh hfin
  have hd : countNinfPos (maskLogitsFast e isCuda t st).result V =
      e.disallowed.length := by
    unfold countNinfPos
    rw [List.countP_congr (fun p hp => by rw [hiff p (List.mem_range.mp hp)])]
    exact countP_mem_range e.disallowed V hwf.2.2.1 hwf.1
  refine ⟨hd, ?_, hsum⟩
  have hsplit := List.length_eq_countP_add_countP
    (fun p => ((maskLogitsFast e isCuda t st).result.getD p (LVal.val 0)).isNinf)
    (l := List.range V)
  rw [List.length_range] at hsplit
  have hneg : (List.range V).countP
      (fun p => decide ¬(((maskLogitsFast e isCuda t st).result.getD p (LVal.val 0)).isNinf
          = true)) =
      countFinitePos (maskLogitsFast e isCuda t st).result V := by
    unfold countFinitePos
    apply List.countP_congr
    intro p _
    by_cases hb : ((maskLogitsFast e isCuda t st).result.getD p (LVal.val 0)).isNinf <;>
      simp [hb]
  rw [hneg] at hsplit
  have : countNinfPos (maskLogitsFast e isCuda t st).result V +
      countFinitePos (maskLogitsFast e isCuda t st).result V = V := by
    unfold countNinfPos
    omega
  omega

/-- Witness for C5 (amended): vocabulary 8, disallowed `{1,3,5}`, allowed
`{0,2,4,6,7}`, all-finite logits, empty cache. -/
theorem C5_complementarity_witness :
    EngineWF ⟨0, [1, 3, 5], [0, 2, 4, 6, 7]⟩ 8 ∧
    (List.replicate 8 (LVal.val 3)).length = 8 ∧
    CacheCoherent ⟨0, [1, 3, 5], [0, 2, 4, 6, 7]⟩ ⟨[], 0⟩ ∧
    (∀ v ∈ List.replicate 8 (LVal.val 3), v ≠ LVal.ninf) ∧
    (countNinfPos (maskLogitsFast ⟨0, [1, 3, 5], [0, 2, 4, 6, 7]⟩ false
        (List.replicate 8 (LVal.val 3)) ⟨[], 0⟩).result 8 =
      (⟨0, [1, 3, 5], [0, 2, 4, 6, 7]⟩ : EngineCore).disallowed.length ∧
    countFinitePos (maskLogitsFast ⟨0, [1, 3, 5], [0, 2, 4, 6, 7]⟩ false
        (List.replicate 8 (LVal.val 3)) ⟨[], 0⟩).result 8 =
      (⟨0, [1, 3, 5], [0, 2, 4, 6, 7]⟩ : EngineCore).allowed.length ∧
    (⟨0, [1, 3, 5], [0, 2, 4, 6, 7]⟩ : EngineCore).disallowed.length +
      (⟨0, [1, 3, 5], [0, 2, 4, 6, 7]⟩ : EngineCore).allowed.length = 8) :=
  ⟨by unfold EngineWF; decide, by decide, fun d a h => by simp [lookupCache] at h,
    by decide,
    C5_complementarity ⟨0, [1, 3, 5], [0, 2, 4, 6, 7]⟩ 8 false
      (List.replicate 8 (LVal.val 3)) ⟨[], 0⟩ (by unfold EngineWF; decide) (by decide)
      (fun d a h => by simp [lookupCache] at h) (by decide)⟩

/-- C6: when the engine reports `disallowed_count == 0`, `mask_logits` is a
no-op: the input object itself is returned (`isNew = false`), its contents are
unchanged, and no index buffer is allocated or inserted into the cache (the
whole state, allocator counter included, is untouched). -/
theorem C6_zero_disallowed_noop (e : EngineCore) (isCuda : Bool) (t : List LVal)
    (st : MaskState) (h0 : e.disallowed.length = 0) (hcoh : CacheCoherent e st) :
    (maskLogitsFast e isCuda t st).result = t ∧
    (maskLogitsFast e isCuda t st).isNew = false ∧
    (maskLogitsFast e isCuda t st).state = st := by
  have hnil : e.disallowed = [] := List.eq_nil_of_length_eq_zero h0
  unfold maskLogitsFast applyStrategy
  cases hlk : lookupCache st.cache e.fingerprint with
  | none => simp [hlk, h0]
  | some pr =>
    obtain ⟨d0, a0⟩ := pr
    obtain ⟨hd0, _⟩ := hcoh d0 a0 hlk
    have hgt : ¬2 * e.disallowed.length > t.length := by omega
    simp [hlk, h0, hgt, hd0, hnil, indexFillNinf]

/-- Witness for C6: an engine with no disallowed ids and an empty cache. -/
theorem C6_zero_disallowed_noop_witness :
    (⟨7, [], [0, 1]⟩ : EngineCore).disallowed.length = 0 ∧
    CacheCoherent ⟨7, [], [0, 1]⟩ ⟨[], 0⟩ ∧
    ((maskLogitsFast ⟨7, [], [0, 1]⟩ false [LVal.val 1, LVal.val 2] ⟨[], 0⟩).result =
        [LVal.val 1, LVal.val 2] ∧
      (maskLogitsFast ⟨7, [], [0, 1]⟩ false [LVal.val 1, LVal.val 2] ⟨[], 0⟩).isNew = false ∧
      (maskLogitsFast ⟨7, [], [0, 1]⟩ false [LVal.val 1, LVal.val 2] ⟨[], 0⟩).state = ⟨[], 0⟩) :=
  ⟨rfl, fun d a h => by simp [lookupCache] at h,
    C6_zero_disallowed_noop ⟨7, [], [0, 1]⟩ false [LVal.val 1, LVal.val 2] ⟨[], 0⟩
      rfl (fun d a h => by simp [lookupCache] at h)⟩

/-- C7: the fingerprint cache keeps at most one entry per fingerprint, and
every entry is complete, holding exactly the id lists (hence exactly the
reported counts) of the fingerprint's engine state; a call whose fingerprint is
already cached changes nothing and reuses the identical buffer pair (no
reallocation); a call with a new fingerprint inserts a pair with fresh buffer
identities while every prior entry survives unchanged. -/
theorem C7_cache_invariants (F : Nat → List Nat × List Nat) (e : EngineCore)
    (isCuda : Bool) (t : List LVal) (st : MaskState)
    (hF : F e.fingerprint = (e.disallowed, e.allowed))
    (hok : CacheOK F st.cache) (hbound : IdsBound st.cache st.nextId) :
    (CacheOK F (maskLogitsFast e isCuda t st).state.cache ∧
      IdsBound (maskLogitsFast e isCuda t st).state.cache
        (maskLogitsFast e isCuda t st).state.nextId) ∧
    (∀ d a, lookupCache st.cache e.fingerprint = some (d, a) →
      (maskLogitsFast e isCuda t st).state = st ∧
        (maskLogitsFast e isCuda t st).used = some (d, a)) ∧
    (lookupCache st.cache e.fingerprint = none → e.disallowed.length ≠ 0 →
      (∀ ent ∈ st.cache, ent ∈ (maskLogitsFast e isCuda t st).state.cache) ∧
      (maskLogitsFast e isCuda t st).used =
        some (⟨st.nextId, e.disallowed, isCuda⟩, ⟨st.nextId + 1, e.allowed, isCuda⟩) ∧
      (∀ ent ∈ st.cache,
        ent.2.1.id ≠ st.nextId ∧ ent.2.1.id ≠ st.nextId + 1 ∧
        ent.2.2.id ≠ st.nextId ∧ ent.2.2.id ≠ st.nextId + 1)) := by
  refine ⟨?_, ?_, ?_⟩
  · cases hlk : lookupCache st.cache e.fingerprint with
    | none =>
      by_cases h0 : e.disallowed.length = 0
      · unfold maskLogitsFast
        simp only [hlk, h0, if_true]
        exact ⟨hok, hbound⟩
      · obtain ⟨hst, _⟩ := maskLogitsFast_miss e isCuda t st hlk h0
        rw [hst]
        obtain ⟨hnd, hdata⟩ := hok
        refine ⟨⟨?_, ?_⟩, ?_⟩
        · rw [List.map_cons]
          exact List.Nodup.cons ((lookupCache_eq_none_iff st.cache e.fingerprint).mp hlk) hnd
        · intro ent hent
          rcases List.mem_cons.mp hent with hent | hent
          · subst hent
            rw [hF]
            exact ⟨rfl, rfl⟩
          · exact hdata ent hent
        · intro ent hent
          rcases List.mem_cons.mp hent with hent | hent
          · subst hent
            refine ⟨?_, ?_⟩
            · show st.nextId < st.nextId + 2
              omega
            · show st.nextId + 1 < st.nextId + 2
              omega
          · obtain ⟨h1, h2⟩ := hbound ent hent
            refine ⟨?_, ?_⟩
            · show ent.2.1.id < st.nextId + 2
              omega
            · show ent.2.2.id < st.nextId + 2
              omega
    | some pr =>
      obtain ⟨d, a⟩ := pr
      obtain ⟨hst, _⟩ := maskLogitsFast_hit e isCuda t st d a hlk
      rw [hst]
      exact ⟨hok, hbound⟩
  · intro d a hlk
    exact maskLogitsFast_hit e isCuda t st d a hlk
  · intro hlk h0
    obtain ⟨hst, hused⟩ := maskLogitsFast_miss e isCuda t st hlk h0
    rw [hst, hused]
    refine ⟨fun ent hent => List.mem_cons_of_mem _ hent, rfl, fun ent hent => ?_⟩
    obtain ⟨h1, h2⟩ := hbound ent hent
    exact ⟨by omega, by omega, by omega, by omega⟩

/-- Witness for C7: a fresh cache, the oracle mapping every fingerprint to
`([1], [0])`, and an engine with fingerprint `0`. -/
theorem C7_cache_invariants_witness :
    (fun _ : Nat => ([1], [0])) (⟨0, [1], [0]⟩ : EngineCore).fingerprint =
      ((⟨0, [1], [0]⟩ : EngineCore).disallowed, (⟨0, [1], [0]⟩ : EngineCore).allowed) ∧
    CacheOK (fun _ : Nat => ([1], [0])) ([] : Cache) ∧
    IdsBound ([] : Cache) 0 ∧
    ((CacheOK (fun _ : Nat => ([1], [0]))
        (maskLogitsFast ⟨0, [1], [0]⟩ false [LVal.val 1, LVal.val 2] ⟨[], 0⟩).state.cache ∧
      IdsBound (maskLogitsFast ⟨0, [1], [0]⟩ false [LVal.val 1, LVal.val 2] ⟨[], 0⟩).state.cache
        (maskLogitsFast ⟨0, [1], [0]⟩ false [LVal.val 1, LVal.val 2] ⟨[], 0⟩).state.nextId) ∧
    (∀ d a, lookupCache ([] : Cache) 0 = some (d, a) →
      (maskLogitsFast ⟨0, [1], [0]⟩ false [LVal.val 1, LVal.val 2] ⟨[], 0⟩).state = ⟨[], 0⟩ ∧
        (maskLogitsFast ⟨0, [1], [0]⟩ false [LVal.val 1, LVal.val 2] ⟨[], 0⟩).used =
          some (d, a)) ∧
    (lookupCache ([] : Cache) 0 = none → (⟨0, [1], [0]⟩ : EngineCore).disallowed.length ≠ 0 →
      (∀ ent ∈ ([] : Cache), ent ∈
        (maskLogitsFast ⟨0, [1], [0]⟩ false [LVal.val 1, LVal.val 2] ⟨[], 0⟩).state.cache) ∧
      (maskLogitsFast ⟨0, [1], [0]⟩ false [LVal.val 1, LVal.val 2] ⟨[], 0⟩).used =
        some (⟨0, [1], false⟩, ⟨1, [0], false⟩) ∧
      (∀ ent ∈ ([] : Cache),
        ent.2.1.id ≠ 0 ∧ ent.2.1.id ≠ 1 ∧ ent.2.2.id ≠ 0 ∧ ent.2.2.id ≠ 1))) :=
  ⟨rfl, ⟨by simp, by simp⟩, by simp [IdsBound],
    C7_cache_invariants (fun _ => ([1], [0])) ⟨0, [1], [0]⟩ false
      [LVal.val 1, LVal.val 2] ⟨[], 0⟩ rfl ⟨by simp, by simp⟩ (by simp [IdsBound])⟩

/-- C8: masking is idempotent — applying `mask_logits` a second time with the
same engine (same allowed set) to the buffer produced by the first call yields
identical contents. -/
theorem C8_idempotent (e : EngineCore) (V : Nat) (isCuda : Bool)
    (t : List LVal) (st : MaskState)
    (hwf : EngineWF e V) (ht : t.length = V) (hcoh : CacheCoherent e st) :
    (maskLogitsFast e isCuda (maskLogitsFast e isCuda t st).result
        (maskLogitsFast e isCuda t st).state).result =
      (maskLogitsFast e isCuda t st).result := by
  have hl1 : (maskLogitsFast e isCuda t st).result.length = V := by
    rw [maskLogitsFast_length, ht]
  have hcoh2 : CacheCoherent e (maskLogitsFast e isCuda t st).state :=
    cacheCoherent_after e isCuda t st hcoh
  obtain ⟨hs1, hk1⟩ := maskLogitsFast_char e V isCuda t st hwf ht hcoh
  obtain ⟨hs2, hk2⟩ := maskLogitsFast_char e V isCuda
    (maskLogitsFast e isCuda t st).result (maskLogitsFast e isCuda t st).state hwf hl1 hcoh2
  apply List.ext_getElem?
  intro p
  rcases Nat.lt_or_ge V (2 * e.disallowed.length) with hgt | hle
  · obtain ⟨_, hchar1⟩ := hk1 hgt
    obtain ⟨_, hchar2⟩ := hk2 hgt
    rw [hchar2 p, hchar1 p]
    by_cases hp : p < V
    · by_cases hm : p ∈ e.allowed <;> simp [hp, hm]
    · simp [hp]
  · obtain ⟨_, hchar1⟩ := hs1 hle
    obtain ⟨_, hchar2⟩ := hs2 hle
    rw [hchar2 p, hchar1 p]
    by_cases hm : p ∈ e.disallowed <;> by_cases hp : p < V <;> simp [hm, hp]

/-- Witness for C8: vocabulary 8, disallowed `{1,3,5}`, allowed `{0,2,4,6,7}`,
empty cache. -/
theorem C8_idempotent_witness :
    EngineWF ⟨0, [1, 3, 5], [0, 2, 4, 6, 7]⟩ 8 ∧
    (List.replicate 8 (LVal.val 3)).length = 8 ∧
    CacheCoherent ⟨0, [1, 3, 5], [0, 2, 4, 6, 7]⟩ ⟨[], 0⟩ ∧
    (maskLogitsFast ⟨0, [1, 3, 5], [0, 2, 4, 6, 7]⟩ false
        (maskLogitsFast ⟨0, [1, 3, 5], [0, 2, 4, 6, 7]⟩ false
          (List.replicate 8 (LVal.val 3)) ⟨[], 0⟩).result
        (maskLogitsFast ⟨0, [1, 3, 5], [0, 2, 4, 6, 7]⟩ false
          (List.replicate 8 (LVal.val 3)) ⟨[], 0⟩).state).result =
      (maskLogitsFast ⟨0, [1, 3, 5], [0, 2, 4, 6, 7]⟩ false
        (List.replicate 8 (LVal.val 3)) ⟨[], 0⟩).result :=
  ⟨by unfold EngineWF; decide, by decide, fun d a h => by simp [lookupCache] at h,
    C8_idempotent ⟨0, [1, 3, 5], [0, 2, 4, 6, 7]⟩ 8 false
      (List.replicate 8 (LVal.val 3)) ⟨[], 0⟩ (by unfold EngineWF; decide) (by decide)
      (fun d a h => by simp [lookupCache] at h)⟩

theorem length_storeNinfWhere (cond : Nat → Bool) (j0 : Nat) (l : List LVal) :
    (storeNinfWhere cond j0 l).length = l.length := by
  induction l generalizing j0 with
  | nil => rfl
  | cons v rest ih => simp [storeNinfWhere, ih]

theorem getElem?_storeNinfWhere (cond : Nat → Bool) (j0 : Nat) (l : List LVal) (p : Nat) :
    (storeNinfWhere cond j0 l)[p]? =
      if p < l.length ∧ cond (j0 + p) then some LVal.ninf else l[p]? := by
  induction l generalizing j0 p with
  | nil => simp [storeNinfWhere]
  | cons v rest ih =>
    cases p with
    | zero =>
      by_cases hc : cond j0 <;> simp [storeNinfWhere, hc]
    | succ p =>
      have harith : j0 + 1 + p = j0 + (p + 1) := by omega
      simp only [storeNinfWhere, List.getElem?_cons_succ, ih (j0 + 1) p, harith,
        List.length_cons]
      by_cases h1 : p < rest.length <;> by_cases h2 : cond (j0 + (p + 1)) <;>
        simp [h1, h2, Nat.succ_lt_succ_iff]

theorem length_runWorkIds (indices bm : List Nat) (V bsize BLOCK : Nat)
    (ids : List Nat) (logits : List LVal) :
    (runWorkIds indices bm V bsize BLOCK ids logits).length = logits.length := by
  induction ids generalizing logits with
  | nil => rfl
  | cons w rest ih =>
    simp [runWorkIds] at ih ⊢
    rw [ih, length_storeNinfWhere]

theorem getElem?_runWorkIds (indices bm : List Nat) (V bsize BLOCK : Nat)
    (ids : List Nat) (logits : List LVal) (j : Nat) :
    (runWorkIds indices bm V bsize BLOCK ids logits)[j]? =
      if j < logits.length ∧ ids.any (fun w => kernelStore indices bm V bsize BLOCK w j)
      then some LVal.ninf else logits[j]? := by
  induction ids generalizing logits with
  | nil => simp [runWorkIds]
  | cons w rest ih =>
    have hstep : runWorkIds indices bm V bsize BLOCK (w :: rest) logits =
        runWorkIds indices bm V bsize BLOCK rest
          (storeNinfWhere (kernelStore indices bm V bsize BLOCK w) 0 logits) := rfl
    rw [hstep, ih, length_storeNinfWhere, getElem?_storeNinfWhere]
    have hz : 0 + j = j := by omega
    rw [hz]
    by_cases h1 : j < logits.length <;>
      by_cases h2 : kernelStore indices bm V bsize BLOCK w j = true <;>
      by_cases h3 : rest.any (fun u => kernelStore indices bm V bsize BLOCK u j) = true <;>
      simp [h1, h2, h3]

theorem strideIds_mem_lt (fuel start stride total : Nat) :
    ∀ w ∈ strideIds fuel start stride total, w < total := by
  induction fuel generalizing start with
  | zero => simp [strideIds]
  | succ n ih =>
    intro w hw
    unfold strideIds at hw
    by_cases hs : start < total
    · rw [if_pos hs] at hw
      rcases List.mem_cons.mp hw with rfl | hw
      · exact hs
      · exact ih (start + stride) w hw
    · rw [if_neg hs] at hw
      cases hw

theorem strideIds_mem_of (stride total : Nat) :
    ∀ k fuel start, start + k * stride < total → k < fuel →
      start + k * stride ∈ strideIds fuel start stride total := by
  intro k
  induction k with
  | zero =>
    intro fuel start hlt hf
    cases fuel with
    | zero => omega
    | succ n =>
      have hst : start < total := by
        have h0 : start + 0 * stride = start := by omega
        rw [h0] at hlt
        exact hlt
      unfold strideIds
      rw [if_pos hst]
      have h0 : start + 0 * stride = start := by omega
      rw [h0]
      exact List.mem_cons_self ..
  | succ k ih =>
    intro fuel start hlt hf
    cases fuel with
    | zero => omega
    | succ n =>
      have hre : start + (k + 1) * stride = (start + stride) + k * stride := by ring
      have hst : start < total := by
        have := Nat.le_add_right start ((k + 1) * stride)
        omega
      unfold strideIds
      rw [if_pos hst, hre]
      exact List.mem_cons_of_mem _ (ih n (start + stride) (hre ▸ hlt) (by omega))

theorem mem_gridWorkIds (numSMS total w : Nat) (hS : 0 < numSMS) :
    w ∈ gridWorkIds numSMS total ↔ w < total := by
  constructor
  · intro hw
    unfold gridWorkIds at hw
    rw [List.mem_flatten] at hw
    obtain ⟨l, hl, hw⟩ := hw
    rw [List.mem_map] at hl
    obtain ⟨pid, _, rfl⟩ := hl
    exact strideIds_mem_lt total pid numSMS total w hw
  · intro hw
    unfold gridWorkIds
    rw [List.mem_flatten]
    refine ⟨strideIds total (w % numSMS) numSMS total,
      List.mem_map.mpr ⟨w % numSMS, List.mem_range.mpr (Nat.mod_lt _ hS), rfl⟩, ?_⟩
    have hdecomp : w % numSMS + (w / numSMS) * numSMS = w := Nat.mod_add_div' w numSMS
    have hfuel : w / numSMS < total := Nat.lt_of_le_of_lt (Nat.div_le_self ..) hw
    have := strideIds_mem_of numSMS total (w / numSMS) total (w % numSMS)
      (by rw [hdecomp]; exact hw) hfuel
    rw [hdecomp] at this
    exact this

/-- Decoding one work unit at flat address `b * V + p` (with `BLOCK = 4096` and
`bitmask_size = ceil(V/32)` as fixed by the wrapper): the unit stores there
exactly when it is the `(row, block)` unit covering that address and the
position's bit in the row's packed bitmask is clear. -/
theorem kernelStore_iff (inds bm : List Nat) (V b p w : Nat) (hp : p < V) :
    kernelStore inds bm V ((V + 32 - 1) / 32) 4096 w (b * V + p) = true ↔
      (inds.getD (w / ((V + 4096 - 1) / 4096)) 0 = b ∧
       w % ((V + 4096 - 1) / 4096) = p / 4096 ∧
       Nat.testBit (bm.getD (b * ((V + 32 - 1) / 32) + p / 32) 0) (p % 32) = false) := by
  unfold kernelStore
  simp only [Bool.and_eq_true, decide_eq_true_eq, Bool.not_eq_true']
  constructor
  · rintro ⟨⟨h1, h2⟩, ⟨h3, h4⟩, hT⟩
    have hbeq : inds.getD (w / ((V + 4096 - 1) / 4096)) 0 = b := by
      have d1 : (b * V + p) / V = b :=
        Nat.div_eq_of_lt_le (Nat.le_add_right ..) (by rw [Nat.succ_mul]; omega)
      have d2 : (b * V + p) / V = inds.getD (w / ((V + 4096 - 1) / 4096)) 0 :=
        Nat.div_eq_of_lt_le h1 (by rw [Nat.succ_mul]; omega)
      rw [d1] at d2
      exact d2.symm
    rw [hbeq] at h3 h4 hT
    have hsub : b * V + p - b * V = p := by omega
    rw [hsub] at h3 h4 hT
    have hq : w % ((V + 4096 - 1) / 4096) = p / 4096 := by omega
    rw [hq] at hT
    have hwo : p / 4096 * 4096 / 32 + (p - p / 4096 * 4096) / 32 = p / 32 := by omega
    have hlane : (p - p / 4096 * 4096) % 32 = p % 32 := by omega
    rw [hwo, hlane] at hT
    have hlt : p / 32 < (V + 32 - 1) / 32 := by omega
    rw [if_pos hlt] at hT
    exact ⟨hbeq, hq, hT⟩
  · rintro ⟨hbeq, hq, htb⟩
    rw [hbeq, hq]
    have hsub : b * V + p - b * V = p := by omega
    rw [hsub]
    have hwo : p / 4096 * 4096 / 32 + (p - p / 4096 * 4096) / 32 = p / 32 := by omega
    have hlane : (p - p / 4096 * 4096) % 32 = p % 32 := by omega
    rw [hwo, hlane]
    have hlt : p / 32 < (V + 32 - 1) / 32 := by omega
    rw [if_pos hlt]
    refine ⟨⟨Nat.le_add_right .., by omega⟩, ⟨by omega, by omega⟩, htb⟩

/-- C1 (amended): for every call to the batched parallel masker with vocabulary
size `V` and per-row packed bitmasks of `ceil(V/32)` 32-bit words, and every
token position `p < V` of a masked row `b = indices[r]`, the logit at position
`p` is set to negative infinity if and only if bit `p mod 32` of word
`p div 32` of that row's bitmask is CLEAR, and positions whose bit is SET keep
their original value (the kernel stores `-inf` where `(word >> bit) & 1 == 0`;
a set bit marks the token as allowed). -/
theorem C1_kernel_bitmask_semantics (logits : List LVal) (numRows V : Nat)
    (bm inds : List Nat) (numSMS : Nat) (hS : 0 < numSMS)
    (r p : Nat) (hr : r < inds.length) (hp : p < V)
    (hlen : inds.getD r 0 * V + V ≤ logits.length) :
    (applyTokenBitmaskTriton logits numRows V bm (some inds) numSMS)[inds.getD r 0 * V + p]? =
      if Nat.testBit (bm.getD (inds.getD r 0 * ((V + 32 - 1) / 32) + p / 32) 0) (p % 32)
      then logits[inds.getD r 0 * V + p]?
      else some LVal.ninf := by
  have hrw : applyTokenBitmaskTriton logits numRows V bm (some inds) numSMS =
      runWorkIds inds bm V ((V + 32 - 1) / 32) 4096
        (gridWorkIds numSMS (inds.length * ((V + 4096 - 1) / 4096))) logits := rfl
  rw [hrw, getElem?_runWorkIds]
  have hjlen : inds.getD r 0 * V + p < logits.length := by omega
  by_cases htb : Nat.testBit
      (bm.getD (inds.getD r 0 * ((V + 32 - 1) / 32) + p / 32) 0) (p % 32)
  · rw [if_pos htb]
    have hnone : (gridWorkIds numSMS (inds.length * ((V + 4096 - 1) / 4096))).any
        (fun w => kernelStore inds bm V ((V + 32 - 1) / 32) 4096 w
          (inds.getD r 0 * V + p)) = false := by
      rw [Bool.eq_false_iff]
      intro hany
      rw [List.any_eq_true] at hany
      obtain ⟨w, _, hF⟩ := hany
      obtain ⟨_, _, hbit⟩ := (kernelStore_iff inds bm V (inds.getD r 0) p w hp).mp hF
      rw [htb] at hbit
      cases hbit
    rw [hnone]
    simp
  · rw [if_neg htb]
    have hq : p / 4096 < (V + 4096 - 1) / 4096 := by omega
    have hw0 : r * ((V + 4096 - 1) / 4096) + p / 4096 <
        inds.length * ((V + 4096 - 1) / 4096) := by
      have hsucc : (r + 1) * ((V + 4096 - 1) / 4096) ≤
          inds.length * ((V + 4096 - 1) / 4096) :=
        Nat.mul_le_mul_right _ hr
      have hexp : (r + 1) * ((V + 4096 - 1) / 4096) =
          r * ((V + 4096 - 1) / 4096) + (V + 4096 - 1) / 4096 := by ring
      omega
    have hdiv : (r * ((V + 4096 - 1) / 4096) + p / 4096) / ((V + 4096 - 1) / 4096) = r := by
      rw [Nat.mul_comm r, Nat.mul_add_div (by omega)]
      rw [Nat.div_eq_of_lt hq]
      omega
    have hmod : (r * ((V + 4096 - 1) / 4096) + p / 4096) % ((V + 4096 - 1) / 4096)
        = p / 4096 := by
      rw [Nat.mul_comm r, Nat.mul_add_mod]
      exact Nat.mod_eq_of_lt hq
    have hcond : kernelStore inds bm V ((V + 32 - 1) / 32) 4096
        (r * ((V + 4096 - 1) / 4096) + p / 4096) (inds.getD r 0 * V + p) = true := by
      rw [kernelStore_iff inds bm V (inds.getD r 0) p _ hp]
      refine ⟨?_, ?_, ?_⟩
      · rw [hdiv]
      · rw [hmod]
      · exact Bool.eq_false_iff.mpr htb
    have hsome : (gridWorkIds numSMS (inds.length * ((V + 4096 - 1) / 4096))).any
        (fun w => kernelStore inds bm V ((V + 32 - 1) / 32) 4096 w
          (inds.getD r 0 * V + p)) = true := by
      rw [List.any_eq_true]
      exact ⟨r * ((V + 4096 - 1) / 4096) + p / 4096,
        (mem_gridWorkIds numSMS _ _ hS).mpr hw0, hcond⟩
    rw [hsome]
    rw [if_pos ⟨hjlen, rfl⟩]

/-- C1 counterexample: vocabulary 40, bitmask words `[1, 2^7]` (bits 0 and 39
set), one row.  The claim predicts positions 0 and 39 become `-inf` (bit set ⇒
disallowed) and position 1 (bit clear) keeps its value; the kernel does the
opposite: position 0 keeps its original value while position 1 becomes `-inf`. -/
theorem C1_counterexample :
    Nat.testBit (([1, 128] : List Nat).getD 0 0) 0 = true ∧
    (applyTokenBitmaskTriton (List.replicate 40 (LVal.val 7)) 1 40 [1, 128]
        (some [0]) 4)[0]? = some (LVal.val 7) ∧
    Nat.testBit (([1, 128] : List Nat).getD 0 0) 1 = false ∧
    (applyTokenBitmaskTriton (List.replicate 40 (LVal.val 7)) 1 40 [1, 128]
        (some [0]) 4)[1]? = some LVal.ninf := by decide

/-- Witness for C1 (amended) at the spec's concrete scenario: vocabulary 40,
two bitmask words with bits 0 and 39 set; position 39's bit is set, so it keeps
its original value. -/
theorem C1_kernel_bitmask_semantics_witness :
    0 < 4 ∧ 0 < 1 ∧ 39 < 40 ∧
    (([0] : List Nat).getD 0 0) * 40 + 40 ≤ (List.replicate 40 (LVal.val 7)).length ∧
    (applyTokenBitmaskTriton (List.replicate 40 (LVal.val 7)) 1 40 [1, 128]
        (some [0]) 4)[([0] : List Nat).getD 0 0 * 40 + 39]? =
      (if Nat.testBit (([1, 128] : List Nat).getD
          (([0] : List Nat).getD 0 0 * ((40 + 32 - 1) / 32) + 39 / 32) 0) (39 % 32)
      then (List.replicate 40 (LVal.val 7))[([0] : List Nat).getD 0 0 * 40 + 39]?
      else some LVal.ninf) :=
  ⟨by decide, by decide, by decide, by decide,
    C1_kernel_bitmask_semantics (List.replicate 40 (LVal.val 7)) 1 40 [1, 128] [0] 4
      (by decide) 0 39 (by decide) (by decide) (by decide)⟩

/-- C2 evaluated at the failing input: two engines over a 32-token vocabulary,
engine 0's bitmask all-clear (mask everything), engine 1's all-set (mask
nothing).  Under the claimed per-engine behavior row 0 position 0 becomes
`-inf`; the code as written masks row 0 with engine 1's row (the last-row base
pointer), so row 0 position 0 keeps its original value, and the two behaviors
produce different buffers. -/
theorem C2_divergence :
    (mask_logits_inplace (List.replicate 64 (LVal.val 7)) 2 32
        [[0], [4294967295]] none 2)[0]? = some (LVal.val 7) ∧
    (mask_logits_inplace_per_engine (List.replicate 64 (LVal.val 7)) 2 32
        [[0], [4294967295]] none 2)[0]? = some LVal.ninf ∧
    mask_logits_inplace (List.replicate 64 (LVal.val 7)) 2 32
        [[0], [4294967295]] none 2 ≠
      mask_logits_inplace_per_engine (List.replicate 64 (LVal.val 7)) 2 32
        [[0], [4294967295]] none 2 := by decide

/-- C9 counterexample: the claim says every supported handle type accepts shape
`(1, n)`, but a torch tensor of shape `(1, 3)` is rejected — the fast-mask path
asserts `dim() == 1`. -/
theorem C9_counterexample :
    maskLogitsShapeOutcome .torchTensor [1, 3] = .shapeError ∧
    maskLogitsShapeOutcome .numpyArray [1, 3] = .ok := by decide

/-- C9 (amended): numpy arrays are accepted exactly at shapes `(n,)` and
`(1, n)`; torch tensors (handled by the fast path) are accepted exactly at
shape `(n,)` — a torch `(1, n)` tensor raises; every rejection happens before
any mutation of the buffer. -/
theorem C9_shape_validation (s : List Nat) (buf : List LVal)
    (maskFn : List LVal → List LVal) :
    (maskLogitsShapeOutcome .numpyArray s = .ok ↔
      (s.length = 1 ∨ (s.length = 2 ∧ s.getD 0 0 = 1))) ∧
    (maskLogitsShapeOutcome .torchTensor s = .ok ↔ s.length = 1) ∧
    (∀ k, maskLogitsShapeOutcome k s = .shapeError →
      (maskLogitsValidated k s buf maskFn).2 = buf) := by
  refine ⟨?_, ?_, ?_⟩
  · show (if s.length = 1 ∨ (s.length = 2 ∧ s.getD 0 0 = 1) then ShapeOutcome.ok
      else ShapeOutcome.shapeError) = ShapeOutcome.ok ↔ _
    by_cases h : s.length = 1 ∨ (s.length = 2 ∧ s.getD 0 0 = 1)
    · rw [if_pos h]
      exact iff_of_true rfl h
    · rw [if_neg h]
      exact iff_of_false (fun hc => ShapeOutcome.noConfusion hc) h
  · unfold maskLogitsShapeOutcome torchFastShapeCheck
    by_cases h : s.length = 1 <;> simp [h]
  · intro k herr
    unfold maskLogitsValidated
    rw [herr]

/-- Witness for C9 (amended): a torch tensor of shape `(1, 3)` is rejected and
its buffer survives unchanged. -/
theorem C9_shape_validation_witness :
    maskLogitsShapeOutcome .torchTensor [1, 3] = .shapeError ∧
    (maskLogitsValidated .torchTensor [1, 3] [LVal.val 1] (fun _ => [])).2 =
      [LVal.val 1] :=
  ⟨by decide,
    (C9_shape_validation [1, 3] [LVal.val 1] (fun _ => [])).2.2 .torchTensor (by decide)⟩

/-- C10: both `copy.copy` and `copy.deepcopy` of an `Engine` produce a clone
whose fingerprint cache is empty — no cached `IndexBuffer` pair is shared with
or copied into the clone — so the clone's first masking call misses the cache
and re-derives its index buffers with fresh allocations. -/
theorem C10_copy_empty_cache (e : PyEngine) (isCuda : Bool) (t : List LVal) (n : Nat)
    (h0 : e.internal.disallowed.length ≠ 0) :
    (engineCopy e).cache = [] ∧
    (engineDeepcopy e).cache = [] ∧
    (∀ f, lookupCache (engineCopy e).cache f = none) ∧
    (∀ f, lookupCache (engineDeepcopy e).cache f = none) ∧
    (maskLogitsFast (engineCopy e).internal isCuda t ⟨(engineCopy e).cache, n⟩).used =
      some (⟨n, e.internal.disallowed, isCuda⟩, ⟨n + 1, e.internal.allowed, isCuda⟩) ∧
    (maskLogitsFast (engineCopy e).internal isCuda t
        ⟨(engineCopy e).cache, n⟩).state.nextId = n + 2 := by
  have hlk : lookupCache (engineCopy e).cache (engineCopy e).internal.fingerprint = none := rfl
  obtain ⟨hst, hused⟩ := maskLogitsFast_miss (engineCopy e).internal isCuda t
    ⟨(engineCopy e).cache, n⟩ hlk h0
  exact ⟨rfl, rfl, fun f => rfl, fun f => rfl, hused, by rw [hst]⟩

/-- Witness for C10: an engine whose original cache is nonempty; the clone
starts empty and its first call allocates ids `0` and `1`. -/
theorem C10_copy_empty_cache_witness :
    (⟨⟨4, [1], [0]⟩, [(9, ⟨5, [2], false⟩, ⟨6, [3], false⟩)]⟩ :
        PyEngine).internal.disallowed.length ≠ 0 ∧
    ((engineCopy ⟨⟨4, [1], [0]⟩, [(9, ⟨5, [2], false⟩, ⟨6, [3], false⟩)]⟩).cache = [] ∧
    (engineDeepcopy ⟨⟨4, [1], [0]⟩, [(9, ⟨5, [2], false⟩, ⟨6, [3], false⟩)]⟩).cache = [] ∧
    (∀ f, lookupCache
      (engineCopy ⟨⟨4, [1], [0]⟩, [(9, ⟨5, [2], false⟩, ⟨6, [3], false⟩)]⟩).cache f = none) ∧
    (∀ f, lookupCache
      (engineDeepcopy ⟨⟨4, [1], [0]⟩, [(9, ⟨5, [2], false⟩, ⟨6, [3], false⟩)]⟩).cache f
        = none) ∧
    (maskLogitsFast
        (engineCopy ⟨⟨4, [1], [0]⟩, [(9, ⟨5, [2], false⟩, ⟨6, [3], false⟩)]⟩).internal
        false [LVal.val 1, LVal.val 2]
        ⟨(engineCopy ⟨⟨4, [1], [0]⟩, [(9, ⟨5, [2], false⟩, ⟨6, [3], false⟩)]⟩).cache,
          0⟩).used = some (⟨0, [1], false⟩, ⟨1, [0], false⟩) ∧
    (maskLogitsFast
        (engineCopy ⟨⟨4, [1], [0]⟩, [(9, ⟨5, [2], false⟩, ⟨6, [3], false⟩)]⟩).internal
        false [LVal.val 1, LVal.val 2]
        ⟨(engineCopy ⟨⟨4, [1], [0]⟩, [(9, ⟨5, [2], false⟩, ⟨6, [3], false⟩)]⟩).cache,
          0⟩).state.nextId = 0 + 2) :=
  ⟨by decide,
    C10_copy_empty_cache ⟨⟨4, [1], [0]⟩, [(9, ⟨5, [2], false⟩, ⟨6, [3], false⟩)]⟩
      false [LVal.val 1, LVal.val 2] 0 (by decide)⟩
